import Mathlib

/-!
A verification of `lighthouse-cli/printer.ts`.

This file gives a shallow embedding of the printer module of the
lighthouse CLI and proves properties of it.  The embedding follows the
TypeScript source function by function:

* the data model (`Results`, `Aggregation`, `AggregationResultItem`,
  `AuditResult`) is translated record for record;
* `checkOutputPath`, `formatAggregationResultItem`, `createOutput`,
  `writeToStdout`, `writeFile`, `write` and `GetValidOutputOptions`
  keep their source names;
* JavaScript numbers are modelled as exact rationals (`ℚ`); machine
  floats do not occur in any claim below;
* the asynchronous promise returned by `write` is modelled as an
  `Except` value: `.ok` is resolution, `.error` is rejection, and the
  run-time `TypeError` thrown by the pretty renderer on an unresolved
  audit reference is modelled by a distinguished `.error` constructor;
* the two external collaborators that the module merely invokes — the
  HTML report generator and the extended-info formatter registry — are
  parameters of the embedding (`htmlGen`, `fmt`);
* the platform's `JSON.stringify(results, null, 2)` is modelled by an
  executable serializer (`stringifyResults`) that reproduces its output
  format (two-space indentation, string escaping, decimal numbers), and
  `JSON.parse` by an executable recursive-descent parser.
-/

namespace Printer

/-! ## Decimal digits

Helper functions used by both the number printer and the parser. -/

/-- The decimal digit character for `d` (meaningful for `d < 10`). -/
def digitCh (d : Nat) : Char := Char.ofNat (48 + d)

/-- Is `c` one of `'0'..'9'`? -/
def isDigitCh (c : Char) : Bool := 48 ≤ c.toNat && c.toNat ≤ 57

/-- Digit characters of `n`, most significant first, recursing
structurally on a fuel bound (so the kernel can evaluate it). -/
def natCharsAux : Nat → Nat → List Char
  | 0, _ => []
  | fuel + 1, n =>
    if n < 10 then [digitCh n] else natCharsAux fuel (n / 10) ++ [digitCh (n % 10)]

/-- The decimal digit characters of `n`, most significant first. -/
def natChars (n : Nat) : List Char := natCharsAux (n + 1) n

/-- The numeric value of a digit string (leading zeros are harmless). -/
def charsVal (ds : List Char) : Nat :=
  ds.foldl (fun acc c => acc * 10 + (c.toNat - 48)) 0

/-- The decimal characters of an integer: optional minus sign, then digits. -/
def intChars (i : Int) : List Char :=
  (if i < 0 then ['-'] else []) ++ natChars i.natAbs

/-! ## Number printing

JavaScript renders every number (both in template strings and in
`JSON.stringify`) with `ToString(Number)`.  Every JavaScript number is a
binary float, hence a rational with a power-of-two denominator, and its
decimal expansion terminates; `ToString` prints that expansion.  The
model below prints the terminating decimal expansion whenever the
denominator divides a power of ten.  For the remaining rationals — which
have no JavaScript counterpart and exist only because `ℚ` is larger than
the float domain — a `num/den` fallback keeps the function total. -/

/-- The least `k` with `den ∣ 10 ^ k`, when one exists. -/
def dec10 (den : Nat) : Option Nat :=
  (List.range (den + 1)).find? (fun k => 10 ^ k % den = 0)

/-- Pad a digit string with leading zeros up to length `k`. -/
def padZeros (k : Nat) (ds : List Char) : List Char :=
  List.replicate (k - ds.length) '0' ++ ds

/-- The characters of a rational, as JavaScript `ToString` prints the
corresponding float: an optional sign, the integer part, and — when the
value is not an integer — a point followed by the digits of the
terminating decimal expansion. -/
def printNumL (q : ℚ) : List Char :=
  (if q.num < 0 then ['-'] else []) ++
  (if q.den = 1 then natChars q.num.natAbs
   else
     match dec10 q.den with
     | some k =>
       let m := q.num.natAbs * (10 ^ k / q.den)
       natChars (m / 10 ^ k) ++ '.' :: padZeros k (natChars (m % 10 ^ k))
     | none => natChars q.num.natAbs ++ '/' :: natChars q.den)

/-- A rational as a string, the way JavaScript string interpolation
(`${score}`) renders the corresponding number. -/
def numToString (q : ℚ) : String := String.mk (printNumL q)

/-- `x.toFixed(0)`: the decimal string of the integer nearest to `x`,
ties going to the larger integer — that is, `⌊x + 1/2⌋`, computed here
on the numerator and denominator so the kernel can evaluate it
(`toFixed0_eq_floor` below proves the formula correct).  Note the
result is a *string*. -/
def toFixed0 (q : ℚ) : String :=
  String.mk (intChars ((2 * q.num + (q.den : Int)) / (2 * (q.den : Int))))

/-! ## The data model

Translated from the interfaces at the top of `printer.ts`.  The
`score` field carries the union `boolean | number | string` that
`formatAggregationResultItem` dispatches on. -/

/-- A score value: `boolean | number | string`. -/
inductive Score where
  | b (v : Bool)
  | n (v : ℚ)
  | s (v : String)
deriving DecidableEq

/-- The optional `extendedInfo` record of an `AuditResult`. -/
structure ExtendedInfo where
  value : String
  formatter : String
deriving DecidableEq

/-- One audit result. -/
structure AuditResult where
  displayValue : String
  debugString : String
  score : Score
  description : String
  extendedInfo : Option ExtendedInfo
deriving DecidableEq

/-- An entry of `subItems`: either an inline `AuditResult` or a string
key to be resolved against `Results.audits`. -/
inductive SubItem where
  | audit (a : AuditResult)
  | ref (key : String)
deriving DecidableEq

/-- One aggregation result item. -/
structure AggregationResultItem where
  overall : ℚ
  name : String
  scored : Bool
  subItems : List SubItem
deriving DecidableEq

/-- One aggregation.  The source names the item list `score`. -/
structure Aggregation where
  name : String
  score : List AggregationResultItem
deriving DecidableEq

/-- The whole results tree.  `audits` is a JavaScript object, modelled
as an insertion-ordered association list. -/
structure Results where
  url : String
  aggregations : List Aggregation
  audits : List (String × AuditResult)
  lighthouseVersion : String
deriving DecidableEq

/-- Key lookup in the `audits` object (`results.audits[subitem]`). -/
def lookupAudit (audits : List (String × AuditResult)) (key : String) :
    Option AuditResult :=
  match audits with
  | [] => none
  | (k, a) :: rest => if k = key then some a else lookupAudit rest key

/-! ## Output modes -/

/-- The enumeration of acceptable output modes. -/
inductive OutputMode where
  | pretty
  | json
  | html
deriving DecidableEq

/-- The canonical name of a mode (`OutputMode[discriminant]`). -/
def modeName : OutputMode → String
  | .pretty => "pretty"
  | .json => "json"
  | .html => "html"

/-- The reverse enum lookup `OutputMode[mode]` on a string: an unknown
name yields `none` (JavaScript `undefined`). -/
def modeFromName : String → Option OutputMode
  | "pretty" => some .pretty
  | "json" => some .json
  | "html" => some .html
  | _ => none

/-- The list of valid output mode names. -/
def GetValidOutputOptions : List String :=
  [modeName .pretty, modeName .json, modeName .html]

/-! ## `checkOutputPath` -/

/-- Verify the output path to use, either stdout or a file path: an
empty (falsy) path becomes the sentinel `"stdout"`. -/
def checkOutputPath (path : String) : String :=
  if path = "" then "stdout" else path

/-! ## `formatAggregationResultItem` -/

def green : String := "\x1B[32m"
def red : String := "\x1B[31m"
def yellow : String := "\x1b[33m"
def purple : String := "\x1b[95m"
def reset : String := "\x1B[0m"
def bold : String := "\x1b[1m"

/-- Format one score token.  A boolean becomes a check or cross glyph,
a non-number is echoed in purple (and the suffix is *not* appended on
this branch, exactly as in the source, which returns early), and a
number is rendered in one of three colour tiers. -/
def formatAggregationResultItem (score : Score) (suffix : String) : String :=
  match score with
  | .b v =>
    let check := green ++ "✓" ++ reset
    let fail := red ++ "✘" ++ reset
    if v then check else fail
  | .s v => purple ++ v ++ reset
  | .n v =>
    let colorChoice := red
    let colorChoice := if v > 45 then yellow else colorChoice
    let colorChoice := if v > 75 then green else colorChoice
    colorChoice ++ numToString v ++ suffix ++ reset

/-! ## The pretty renderer

The source builds the output by `+=` inside nested `forEach` loops; the
embedding produces the same string as the ordered concatenation of the
per-element fragments.  The renderer can *fail*: when a string subitem
has no key in `audits`, the source reads `.score` of `undefined` and
throws a `TypeError`, which rejects the surrounding promise; that throw
is modelled by `Except.error (.missingAudit key)`. -/

/-- A failure of the pretty renderer. -/
inductive RenderErr where
  | missingAudit (key : String)
deriving DecidableEq

/-- The external extended-info formatter registry:
`Formatter.getByName(name).getFormatter('pretty')` applied to a value.
The module only invokes it, so it is a parameter of the embedding. -/
def Formatters : Type := String → String → String

/-- The fragment the subitem loop appends for one resolved
`AuditResult`: the bullet line (with optional display value), the
optional debug line, and the optional extended-info rendering. -/
def renderAudit (fmt : Formatters) (subscore : AuditResult) : String :=
  let lineItem := " ── " ++ formatAggregationResultItem subscore.score "" ++
    " " ++ subscore.description
  let lineItem := if subscore.displayValue ≠ "" then
    lineItem ++ " (" ++ bold ++ subscore.displayValue ++ reset ++ ")" else lineItem
  lineItem ++ "\n" ++
  (if subscore.debugString ≠ "" then "    " ++ subscore.debugString ++ "\n" else "") ++
  (match subscore.extendedInfo with
   | some info => if info.value ≠ "" then fmt info.formatter info.value else ""
   | none => "")

/-- Resolve one subitem (a string is looked up in `audits`) and render
it; an unresolved reference is the modelled `TypeError`. -/
def renderSubItem (fmt : Formatters) (results : Results) :
    SubItem → Except RenderErr String
  | .audit a => .ok (renderAudit fmt a)
  | .ref key =>
    match lookupAudit results.audits key with
    | some subscore => .ok (renderAudit fmt subscore)
    | none => .error (.missingAudit key)

/-- Render the fragments of a list in order, stopping at the first
failure (the thrown `TypeError` aborts the whole rendering). -/
def renderList (f : α → Except RenderErr String) : List α → Except RenderErr String
  | [] => .ok ""
  | x :: rest => do
    let s ← f x
    let t ← renderList f rest
    .ok (s ++ t)

/-- The fragment for one `AggregationResultItem`: the name line (only
for a truthy name; the score token only when `scored`), the subitem
fragments, and a blank-line separator.  Note `(item.overall * 100).toFixed(0)`
is a *string*, so the score token goes through the non-number branch of
`formatAggregationResultItem`. -/
def renderItem (fmt : Formatters) (results : Results)
    (item : AggregationResultItem) : Except RenderErr String := do
  let score := toFixed0 (item.overall * 100)
  let nameLine := if item.name ≠ "" then
    bold ++ item.name ++ reset ++ ": " ++
      (if item.scored then formatAggregationResultItem (.s score) "%" else "") ++ "\n"
    else ""
  let subs ← renderList (renderSubItem fmt results) item.subItems
  .ok (nameLine ++ subs ++ "\n")

/-- The fragment for one `Aggregation`: its header and its items. -/
def renderAggregation (fmt : Formatters) (results : Results)
    (aggregation : Aggregation) : Except RenderErr String := do
  let items ← renderList (renderItem fmt results) aggregation.score
  .ok ("▫ " ++ bold ++ aggregation.name ++ reset ++ "\n\n" ++ items)

/-- The whole pretty-printed report. -/
def prettyPrint (fmt : Formatters) (results : Results) :
    Except RenderErr String := do
  let aggs ← renderList (renderAggregation fmt results) results.aggregations
  .ok ("\n\n" ++ bold ++ "Lighthouse (" ++ results.lighthouseVersion ++
    ") results:" ++ reset ++ " " ++ results.url ++ "\n\n" ++ aggs)

/-! ## JSON

`createOutput` in mode `json` calls the platform serializer
`JSON.stringify(results, null, 2)`.  The serializer is modelled here as
an executable function over a JSON value tree, reproducing the
platform's output format: two-space indentation, `"key": value`
members, JSON string escaping, and terminating decimal numbers. -/

/-- A JSON value. -/
inductive Json where
  | null
  | jb (v : Bool)
  | jn (v : ℚ)
  | js (v : String)
  | jarr (elems : List Json)
  | jobj (members : List (String × Json))

/-- A lowercase hexadecimal digit character (meaningful for `n < 16`). -/
def toHex (n : Nat) : Char :=
  if n < 10 then Char.ofNat (48 + n) else Char.ofNat (87 + n)

/-- One character, escaped as `JSON.stringify` escapes it inside string
literals: the two metacharacters, the five short control escapes, and
`\u00..` for the remaining control characters. -/
def escChar (c : Char) : List Char :=
  if c = '"' then ['\\', '"']
  else if c = '\\' then ['\\', '\\']
  else if c = '\x08' then ['\\', 'b']
  else if c = '\t' then ['\\', 't']
  else if c = '\n' then ['\\', 'n']
  else if c = '\x0c' then ['\\', 'f']
  else if c = '\r' then ['\\', 'r']
  else if c.toNat < 32 then
    ['\\', 'u', '0', '0', toHex (c.toNat / 16), toHex (c.toNat % 16)]
  else [c]

/-- Escape every character of a list. -/
def escList : List Char → List Char
  | [] => []
  | c :: t => escChar c ++ escList t

/-- A JSON string literal: quotes around the escaped characters. -/
def escStr (s : String) : List Char := '"' :: (escList s.data ++ ['"'])

/-- `n` space characters. -/
def spaces (n : Nat) : List Char := List.replicate n ' '

mutual

/-- Serialize one value at indentation `ind`, in the format of
`JSON.stringify(·, null, 2)`. -/
def emitVal (ind : Nat) : Json → List Char
  | .null => ['n', 'u', 'l', 'l']
  | .jb true => ['t', 'r', 'u', 'e']
  | .jb false => ['f', 'a', 'l', 's', 'e']
  | .jn q => printNumL q
  | .js s => escStr s
  | .jarr [] => ['[', ']']
  | .jarr (x :: xs) =>
    '[' :: '\n' :: (emitElems (ind + 2) (x :: xs) ++ '\n' :: (spaces ind ++ [']']))
  | .jobj [] => ['\x7b', '\x7d']
  | .jobj (m :: ms) =>
    '\x7b' :: '\n' :: (emitMembers (ind + 2) (m :: ms) ++ '\n' :: (spaces ind ++ ['\x7d']))

/-- Serialize array elements, one per line at indentation `ind`,
separated by commas. -/
def emitElems (ind : Nat) : List Json → List Char
  | [] => []
  | [x] => spaces ind ++ emitVal ind x
  | x :: y :: ys => spaces ind ++ emitVal ind x ++ ',' :: '\n' :: emitElems ind (y :: ys)

/-- Serialize object members, one per line at indentation `ind`,
separated by commas. -/
def emitMembers (ind : Nat) : List (String × Json) → List Char
  | [] => []
  | [(k, v)] => spaces ind ++ (escStr k ++ ':' :: ' ' :: emitVal ind v)
  | (k, v) :: m :: ms =>
    spaces ind ++ (escStr k ++ ':' :: ' ' :: emitVal ind v) ++
      ',' :: '\n' :: emitMembers ind (m :: ms)

end

/-! The JSON image of the data model, field for field in declaration
order, with an absent `extendedInfo` omitted (as `JSON.stringify` omits
`undefined` properties). -/

def Score.toJson : Score → Json
  | .b v => .jb v
  | .n v => .jn v
  | .s v => .js v

def ExtendedInfo.toJson (e : ExtendedInfo) : Json :=
  .jobj [("value", .js e.value), ("formatter", .js e.formatter)]

def AuditResult.toJson (a : AuditResult) : Json :=
  .jobj ([("displayValue", .js a.displayValue),
          ("debugString", .js a.debugString),
          ("score", a.score.toJson),
          ("description", .js a.description)] ++
         (match a.extendedInfo with
          | some e => [("extendedInfo", e.toJson)]
          | none => []))

def SubItem.toJson : SubItem → Json
  | .audit a => a.toJson
  | .ref key => .js key

def AggregationResultItem.toJson (item : AggregationResultItem) : Json :=
  .jobj [("overall", .jn item.overall),
         ("name", .js item.name),
         ("scored", .jb item.scored),
         ("subItems", .jarr (item.subItems.map SubItem.toJson))]

def Aggregation.toJson (a : Aggregation) : Json :=
  .jobj [("name", .js a.name),
         ("score", .jarr (a.score.map AggregationResultItem.toJson))]

def Results.toJson (r : Results) : Json :=
  .jobj [("url", .js r.url),
         ("aggregations", .jarr (r.aggregations.map Aggregation.toJson)),
         ("audits", .jobj (r.audits.map (fun p => (p.1, p.2.toJson)))),
         ("lighthouseVersion", .js r.lighthouseVersion)]

/-- `JSON.stringify(results, null, 2)`. -/
def stringifyResults (r : Results) : String := String.mk (emitVal 0 r.toJson)

/-! ## `createOutput` -/

/-- Creates the results output in a format based on the mode.  The HTML
report generator is an external collaborator, passed as `htmlGen`.  An
unresolved discriminant (`none`, JavaScript `undefined`) matches
neither the `html` nor the `json` check and falls through to the
pretty-printed branch, exactly as in the source. -/
def createOutput (fmt : Formatters) (htmlGen : Results → String)
    (results : Results) (outputMode : Option OutputMode) :
    Except RenderErr String :=
  if outputMode = some .html then .ok (htmlGen results)
  else if outputMode = some .json then .ok (stringifyResults results)
  else prettyPrint fmt results

/-! ## Delivery

`writeToStdout` and `writeFile` perform the only side effects of the
module.  The embedding records the effect as a `Delivery` value holding
the exact bytes handed to the platform; the file-system outcome is an
oracle `fs` mapping a path to `none` (success) or a reported error. -/

/-- An I/O error reported by the platform file write. -/
structure IOErr where
  msg : String
deriving DecidableEq

/-- The bytes delivered, and where. -/
inductive Delivery where
  | toStdout (bytes : String) : Delivery
  | toFile (path : String) (bytes : String) : Delivery
deriving DecidableEq

/-- The file-system outcome oracle. -/
def Fs : Type := String → Option IOErr

/-- Writes the output to stdout: the platform receives the output
followed by a newline (the source's fixed 50 ms delay orders this write
against concurrent diagnostic logging and does not change the bytes). -/
def writeToStdout (output : String) : Delivery :=
  .toStdout (output ++ "\n")

/-- Writes the output to a file: the platform receives exactly the
output string as the file contents, or reports the write error.  The
mode argument only feeds the success log line in the source. -/
def writeFile (filePath : String) (output : String)
    (outputMode : Option OutputMode) (fs : Fs) : Except IOErr Delivery :=
  match fs filePath with
  | some err => .error err
  | none =>
    let _ := outputMode
    .ok (.toFile filePath output)

/-- A rejection of the promise returned by `write`: either the
`TypeError` thrown by the renderer or the propagated file write error. -/
inductive WriteErr where
  | render (e : RenderErr)
  | io (e : IOErr)
deriving DecidableEq

/-- Writes the results: resolve the output path, compose the output for
`OutputMode[mode]`, and deliver to stdout or to the file; resolution
carries the original results. -/
def write (fmt : Formatters) (htmlGen : Results → String) (results : Results)
    (mode : String) (path : String) (fs : Fs) :
    Except WriteErr (Results × Delivery) :=
  let outputPath := checkOutputPath path
  match createOutput fmt htmlGen results (modeFromName mode) with
  | .error e => .error (.render e)
  | .ok output =>
    if outputPath = "stdout" then
      .ok (results, writeToStdout output)
    else
      match writeFile outputPath output (modeFromName mode) fs with
      | .error err => .error (.io err)
      | .ok d => .ok (results, d)

/-! ## JSON parsing

`JSON.parse`, modelled as an executable recursive-descent parser.  The
parser is total thanks to a fuel argument; `parseResults` supplies fuel
exceeding the input length, which the round-trip proof shows is enough
for every serialized tree. -/

/-- JSON insignificant whitespace. -/
def isWsCh (c : Char) : Bool := c = ' ' || c = '\n' || c = '\t' || c = '\r'

/-- Drop leading whitespace. -/
def skipWs : List Char → List Char
  | [] => []
  | c :: t => if isWsCh c then skipWs t else c :: t

/-- Split off the leading run of decimal digits. -/
def takeDigits : List Char → List Char × List Char
  | [] => ([], [])
  | c :: t =>
    if isDigitCh c then
      let (ds, r) := takeDigits t
      (c :: ds, r)
    else ([], c :: t)

/-- The value of a lowercase hexadecimal digit character. -/
def fromHex (c : Char) : Option Nat :=
  if 48 ≤ c.toNat && c.toNat ≤ 57 then some (c.toNat - 48)
  else if 97 ≤ c.toNat && c.toNat ≤ 102 then some (c.toNat - 87)
  else none

/-- The character denoted by a single-letter escape. -/
def unesc (c : Char) : Option Char :=
  if c = '"' then some '"'
  else if c = '\\' then some '\\'
  else if c = '/' then some '/'
  else if c = 'b' then some '\x08'
  else if c = 't' then some '\t'
  else if c = 'n' then some '\n'
  else if c = 'f' then some '\x0c'
  else if c = 'r' then some '\r'
  else none

/-- Parse a string body after the opening quote, un-escaping as it
goes, up to the closing quote. -/
def pStr : List Char → Option (List Char × List Char)
  | [] => none
  | '"' :: t => some ([], t)
  | '\\' :: 'u' :: h1 :: h2 :: h3 :: h4 :: t =>
    match fromHex h1, fromHex h2, fromHex h3, fromHex h4 with
    | some a, some b, some c, some d =>
      match pStr t with
      | some (s, r) => some (Char.ofNat (((a * 16 + b) * 16 + c) * 16 + d) :: s, r)
      | none => none
    | _, _, _, _ => none
  | '\\' :: e :: t =>
    match unesc e with
    | some c =>
      match pStr t with
      | some (s, r) => some (c :: s, r)
      | none => none
    | none => none
  | ['\\'] => none
  | c :: t =>
    match pStr t with
    | some (s, r) => some (c :: s, r)
    | none => none

/-- Parse an unsigned number body: digits, then optionally a decimal
point with digits (or the `/` form that keeps the printer total on
non-float rationals); `neg` records an already-consumed sign. -/
def pNumCore (cs : List Char) (neg : Bool) : Option (ℚ × List Char) :=
  let (ds, cs2) := takeDigits cs
  if ds = [] then none
  else
    let signed : ℚ → ℚ := fun v => if neg then -v else v
    match cs2 with
    | '.' :: cs3 =>
      let (fs, cs4) := takeDigits cs3
      if fs = [] then none
      else some (signed ((charsVal ds : ℚ) + (charsVal fs : ℚ) / (10 ^ fs.length : ℚ)), cs4)
    | '/' :: cs3 =>
      let (gs, cs4) := takeDigits cs3
      if gs = [] then none
      else some (signed ((charsVal ds : ℚ) / (charsVal gs : ℚ)), cs4)
    | _ => some (signed (charsVal ds : ℚ), cs2)

/-- Parse a number: an optional minus sign, then the unsigned body. -/
def pNum (cs : List Char) : Option (ℚ × List Char) :=
  match cs with
  | '-' :: t => pNumCore t true
  | _ => pNumCore cs false

/-- A remainder that cannot extend a number: empty, or headed by a
character that is neither a digit nor `.` nor `/`.  Every context in
which the serializer emits a number (before `,`, before a newline, at
the end of input) satisfies this. -/
def numEnd : List Char → Bool
  | [] => true
  | c :: _ => !(isDigitCh c || c = '.' || c = '/')

mutual

/-- Parse one value (leading whitespace allowed). -/
def pVal : Nat → List Char → Option (Json × List Char)
  | 0, _ => none
  | fuel + 1, cs =>
    match skipWs cs with
    | 'n' :: 'u' :: 'l' :: 'l' :: r => some (.null, r)
    | 't' :: 'r' :: 'u' :: 'e' :: r => some (.jb true, r)
    | 'f' :: 'a' :: 'l' :: 's' :: 'e' :: r => some (.jb false, r)
    | '"' :: r =>
      match pStr r with
      | some (s, r1) => some (.js (String.mk s), r1)
      | none => none
    | '[' :: r =>
      match skipWs r with
      | ']' :: r1 => some (.jarr [], r1)
      | r1 =>
        match pElems fuel r1 with
        | some (es, r2) => some (.jarr es, r2)
        | none => none
    | '\x7b' :: r =>
      match skipWs r with
      | '\x7d' :: r1 => some (.jobj [], r1)
      | r1 =>
        match pMembers fuel r1 with
        | some (ms, r2) => some (.jobj ms, r2)
        | none => none
    | c :: r =>
      if c = '-' || isDigitCh c then
        match pNum (c :: r) with
        | some (q, r1) => some (.jn q, r1)
        | none => none
      else none
    | [] => none

/-- Parse one-or-more comma-separated array elements up to `]`. -/
def pElems : Nat → List Char → Option (List Json × List Char)
  | 0, _ => none
  | fuel + 1, cs =>
    match pVal fuel cs with
    | none => none
    | some (v, r) =>
      match skipWs r with
      | ',' :: r1 =>
        match pElems fuel r1 with
        | some (vs, r2) => some (v :: vs, r2)
        | none => none
      | ']' :: r1 => some ([v], r1)
      | _ => none

/-- Parse one-or-more comma-separated object members up to the closing
brace. -/
def pMembers : Nat → List Char → Option (List (String × Json) × List Char)
  | 0, _ => none
  | fuel + 1, cs =>
    match skipWs cs with
    | '"' :: r =>
      match pStr r with
      | none => none
      | some (k, r1) =>
        match skipWs r1 with
        | ':' :: r2 =>
          match pVal fuel r2 with
          | none => none
          | some (v, r3) =>
            match skipWs r3 with
            | ',' :: r4 =>
              match pMembers fuel r4 with
              | some (ms, r5) => some ((String.mk k, v) :: ms, r5)
              | none => none
            | '\x7d' :: r4 => some ([(String.mk k, v)], r4)
            | _ => none
        | _ => none
    | _ => none

end

/-! Decoding a parsed JSON tree back into the data model; the shapes
match exactly what the `toJson` functions above produce. -/

def Score.fromJson : Json → Option Score
  | .jb v => some (.b v)
  | .jn v => some (.n v)
  | .js v => some (.s v)
  | _ => none

def ExtendedInfo.fromJson : Json → Option ExtendedInfo
  | .jobj [("value", .js v), ("formatter", .js f)] => some ⟨v, f⟩
  | _ => none

def AuditResult.fromJson : Json → Option AuditResult
  | .jobj (("displayValue", .js dv) :: ("debugString", .js db) ::
           ("score", sc) :: ("description", .js de) :: rest) =>
    match Score.fromJson sc with
    | some s =>
      match rest with
      | [] => some ⟨dv, db, s, de, none⟩
      | [("extendedInfo", ej)] =>
        match ExtendedInfo.fromJson ej with
        | some e => some ⟨dv, db, s, de, some e⟩
        | none => none
      | _ => none
    | none => none
  | _ => none

def SubItem.fromJson (j : Json) : Option SubItem :=
  match j with
  | .js key => some (.ref key)
  | _ =>
    match AuditResult.fromJson j with
    | some a => some (.audit a)
    | none => none

/-- Decode every element of a list. -/
def listFromJson (f : Json → Option α) : List Json → Option (List α)
  | [] => some []
  | j :: t =>
    match f j, listFromJson f t with
    | some a, some l => some (a :: l)
    | _, _ => none

def AggregationResultItem.fromJson : Json → Option AggregationResultItem
  | .jobj [("overall", .jn ov), ("name", .js nm), ("scored", .jb sc),
           ("subItems", .jarr sj)] =>
    match listFromJson SubItem.fromJson sj with
    | some subs => some ⟨ov, nm, sc, subs⟩
    | none => none
  | _ => none

def Aggregation.fromJson : Json → Option Aggregation
  | .jobj [("name", .js nm), ("score", .jarr items)] =>
    match listFromJson AggregationResultItem.fromJson items with
    | some l => some ⟨nm, l⟩
    | none => none
  | _ => none

/-- Decode the members of the `audits` object. -/
def auditsFromJson : List (String × Json) → Option (List (String × AuditResult))
  | [] => some []
  | (k, j) :: t =>
    match AuditResult.fromJson j, auditsFromJson t with
    | some a, some l => some ((k, a) :: l)
    | _, _ => none

def Results.fromJson : Json → Option Results
  | .jobj [("url", .js u), ("aggregations", .jarr aj), ("audits", .jobj entries),
           ("lighthouseVersion", .js v)] =>
    match listFromJson Aggregation.fromJson aj, auditsFromJson entries with
    | some ags, some auds => some ⟨u, ags, auds, v⟩
    | _, _ => none
  | _ => none

/-- `JSON.parse` applied to a whole document, decoded as a `Results`
tree: parse one value, require the input to be consumed, decode. -/
def parseResults (s : String) : Option Results :=
  match pVal (s.data.length + 1) s.data with
  | some (j, rest) => if rest = [] then Results.fromJson j else none
  | none => none

/-! ## Substring occurrence (used to state scenario properties) -/

/-- Does `cs` start with `pat`? -/
def beginsWith : List Char → List Char → Bool
  | [], _ => true
  | _ :: _, [] => false
  | p :: ps, c :: t => p = c && beginsWith ps t

/-- Does `pat` occur as a contiguous segment of `cs`? -/
def occursIn (pat cs : List Char) : Bool :=
  match cs with
  | [] => beginsWith pat []
  | _ :: t => beginsWith pat cs || occursIn pat t

/-- Does the string `pat` occur inside the string `s`? -/
def strOccursIn (pat s : String) : Bool := occursIn pat.data s.data

/-- Did a `write` run deliver bytes to a file? -/
def deliveredFile : Except WriteErr (Results × Delivery) → Bool
  | .ok (_, .toFile _ _) => true
  | _ => false

/-! ## Concrete fixtures (used by scenario theorems and witnesses) -/

/-- A formatter registry that renders every extended info to `""`. -/
def noFmt : Formatters := fun _ _ => ""

/-- An HTML generator collaborator returning a fixed document. -/
def noHtml : Results → String := fun _ => "<html>"

/-- The audit of the minimal pretty-render scenario. -/
def audX : AuditResult := ⟨"", "", .n 90, "desc", none⟩

/-- The item of the minimal pretty-render scenario. -/
def itemX : AggregationResultItem := ⟨0.8, "Item", true, [.audit audX]⟩

/-- The minimal pretty-render scenario tree. -/
def resX : Results := ⟨"http://x", [⟨"Cat", [itemX]⟩], [], "1.0"⟩

/-- A tree whose audits map resolves the key `"k"`. -/
def resK : Results := ⟨"http://x", [], [("k", audX)], "1.0"⟩

/-- A file system on which every write succeeds. -/
def fsOk : Fs := fun _ => none

/-- A file system on which every write fails with `EACCES`. -/
def fsErr : Fs := fun _ => some ⟨"EACCES"⟩

/-! ## Round-trip development: digits -/

/-- `natCharsAux` ignores the fuel as long as it exceeds `n`. -/
theorem natCharsAux_congr : ∀ f g n, n < f → n < g → natCharsAux f n = natCharsAux g n := by
  intro f
  induction f with
  | zero => omega
  | succ f ih =>
    intro g n hf hg
    cases g with
    | zero => omega
    | succ g =>
      simp only [natCharsAux]
      by_cases h10 : n < 10
      · simp [h10]
      · simp only [if_neg h10]
        have := ih g (n / 10) (by omega) (by omega)
        rw [this]

/-- The recurrence `natChars` satisfies. -/
theorem natChars_unfold (n : Nat) :
    natChars n = if n < 10 then [digitCh n] else natChars (n / 10) ++ [digitCh (n % 10)] := by
  unfold natChars
  conv_lhs => simp only [natCharsAux]
  by_cases h10 : n < 10
  · simp [h10]
  · simp only [if_neg h10]
    congr 1
    exact natCharsAux_congr n (n / 10 + 1) (n / 10) (by omega) (by omega)

/-- A digit string is never empty. -/
theorem natChars_ne_nil (n : Nat) : natChars n ≠ [] := by
  rw [natChars_unfold]
  by_cases h : n < 10 <;> simp [h]

/-- The digit character of `d < 10` is a digit. -/
theorem digitCh_isDigit (d : Nat) (h : d < 10) : isDigitCh (digitCh d) = true := by
  interval_cases d <;> decide

/-- The digit character of `d < 10` carries the value `d`. -/
theorem digitCh_val (d : Nat) (h : d < 10) : (digitCh d).toNat - 48 = d := by
  interval_cases d <;> decide

/-- Every character `natChars` produces is a digit. -/
theorem natChars_digits (n : Nat) : ∀ c ∈ natChars n, isDigitCh c = true := by
  induction n using Nat.strong_induction_on with
  | _ n ih =>
    rw [natChars_unfold]
    by_cases h : n < 10
    · simp only [if_pos h, List.mem_singleton]
      rintro c rfl
      exact digitCh_isDigit n h
    · intro c hc
      rw [if_neg h, List.mem_append] at hc
      rcases hc with hc | hc
      · exact ih (n / 10) (by omega) c hc
      · rw [List.mem_singleton] at hc
        subst hc
        exact digitCh_isDigit _ (Nat.mod_lt _ (by omega))

/-- Appending one digit character multiplies the value by ten. -/
theorem charsVal_snoc (ds : List Char) (c : Char) :
    charsVal (ds ++ [c]) = charsVal ds * 10 + (c.toNat - 48) := by
  unfold charsVal
  rw [List.foldl_append]
  rfl

/-- Reading the digit string of `n` gives back `n`. -/
theorem charsVal_natChars (n : Nat) : charsVal (natChars n) = n := by
  induction n using Nat.strong_induction_on with
  | _ n ih =>
    rw [natChars_unfold]
    by_cases h : n < 10
    · simp only [if_pos h]
      show charsVal [digitCh n] = n
      have : charsVal [digitCh n] = (digitCh n).toNat - 48 := by
        unfold charsVal
        simp
      rw [this, digitCh_val n h]
    · rw [if_neg h, charsVal_snoc, ih (n / 10) (by omega),
          digitCh_val _ (Nat.mod_lt _ (by omega))]
      omega

/-- `n < 10 ^ k` has at most `k` digits (for `k ≥ 1`). -/
theorem natChars_len : ∀ n k, n < 10 ^ k → 1 ≤ k → (natChars n).length ≤ k := by
  intro n
  induction n using Nat.strong_induction_on with
  | _ n ih =>
    intro k hn hk
    rw [natChars_unfold]
    by_cases h : n < 10
    · simp [h, hk]
    · match k, hk with
      | 1, _ =>
        norm_num at hn
        omega
      | k + 2, _ =>
        have hdiv : n / 10 < 10 ^ (k + 1) := by
          rw [Nat.div_lt_iff_lt_mul (by omega)]
          calc n < 10 ^ (k + 2) := hn
            _ = 10 ^ (k + 1) * 10 := by ring
        have := ih (n / 10) (by omega) (k + 1) hdiv (by omega)
        simp only [if_neg h, List.length_append, List.length_cons, List.length_nil]
        omega

/-- Leading zero characters do not change a digit string's value. -/
theorem charsVal_zeros (z : Nat) (ds : List Char) :
    charsVal (List.replicate z '0' ++ ds) = charsVal ds := by
  induction z with
  | zero => simp
  | succ z ih =>
    rw [List.replicate_succ, List.cons_append]
    show charsVal ('0' :: (List.replicate z '0' ++ ds)) = charsVal ds
    unfold charsVal at ih ⊢
    simpa using ih

/-- `padZeros` preserves the value. -/
theorem padZeros_val (k : Nat) (ds : List Char) :
    charsVal (padZeros k ds) = charsVal ds := charsVal_zeros _ _

/-- `padZeros` pads exactly up to `k` when the input is no longer. -/
theorem padZeros_len (k : Nat) (ds : List Char) (h : ds.length ≤ k) :
    (padZeros k ds).length = k := by
  simp only [padZeros, List.length_append, List.length_replicate]
  omega

/-- `padZeros` keeps every character a digit. -/
theorem padZeros_digits (k : Nat) (ds : List Char)
    (h : ∀ c ∈ ds, isDigitCh c = true) :
    ∀ c ∈ padZeros k ds, isDigitCh c = true := by
  intro c hc
  rw [padZeros, List.mem_append] at hc
  rcases hc with hc | hc
  · rw [List.eq_of_mem_replicate hc]
    decide
  · exact h c hc

/-! ## Round-trip development: digit runs -/

/-- `takeDigits` takes nothing from a non-digit head. -/
theorem takeDigits_cons_nd {c : Char} {t : List Char} (h : isDigitCh c = false) :
    takeDigits (c :: t) = ([], c :: t) := by
  simp [takeDigits, h]

/-- A remainder that cannot extend a number never starts with a digit. -/
theorem numEnd_stop {cs : List Char} (h : numEnd cs = true) :
    ∀ d t2, cs = d :: t2 → isDigitCh d = false := by
  intro d t2 hdt
  subst hdt
  simp only [numEnd, Bool.not_eq_eq_eq_not, Bool.not_true, Bool.or_eq_false_iff,
    decide_eq_false_iff_not] at h
  exact h.1.1

/-- A list headed by a non-digit character never starts with a digit. -/
theorem head_stop {c : Char} (hc : isDigitCh c = false) (t : List Char) :
    ∀ d t2, c :: t = d :: t2 → isDigitCh d = false := by
  intro d t2 hdt
  injection hdt with h1 _
  rw [← h1]
  exact hc

/-- `takeDigits` splits a digit run off a digit-free remainder. -/
theorem takeDigits_run (ds rest : List Char)
    (hds : ∀ c ∈ ds, isDigitCh c = true)
    (hstop : ∀ d t2, rest = d :: t2 → isDigitCh d = false) :
    takeDigits (ds ++ rest) = (ds, rest) := by
  induction ds with
  | nil =>
    rw [List.nil_append]
    cases rest with
    | nil => rfl
    | cons d t2 => exact takeDigits_cons_nd (hstop d t2 rfl)
  | cons c cs ih =>
    have hc : isDigitCh c = true := hds c (List.mem_cons_self ..)
    rw [List.cons_append]
    simp only [takeDigits, hc, if_true,
      ih (fun x hx => hds x (List.mem_cons_of_mem _ hx))]

/-! ## Round-trip development: numbers -/

/-- A digit string starts with a digit. -/
theorem natChars_head (n : Nat) :
    ∃ c t, natChars n = c :: t ∧ isDigitCh c = true := by
  cases h : natChars n with
  | nil => exact absurd h (natChars_ne_nil n)
  | cons c t =>
    refine ⟨c, t, rfl, natChars_digits n c ?_⟩
    rw [h]
    exact List.mem_cons_self ..

/-- A digit is not the minus sign. -/
theorem digit_ne_minus {c : Char} (h : isDigitCh c = true) : c ≠ '-' := by
  rintro rfl
  simp [isDigitCh] at h

/-- `pNum` without a leading minus sign defers to the unsigned body. -/
theorem pNum_not_neg {c : Char} (t : List Char) (h : c ≠ '-') :
    pNum (c :: t) = pNumCore (c :: t) false := by
  rw [pNum.eq_def]
  split
  · rename_i heq
    injection heq with h1 _
    exact absurd h1 h
  · rfl

/-- Parsing an integer body: the digit run of `a` followed by a
remainder that cannot extend the number. -/
theorem pNumCore_int (a : Nat) (neg : Bool) (rest : List Char)
    (hrest : numEnd rest = true) :
    pNumCore (natChars a ++ rest) neg =
      some ((if neg then -(a : ℚ) else (a : ℚ)), rest) := by
  unfold pNumCore
  simp only [takeDigits_run (natChars a) rest (natChars_digits a)
    (numEnd_stop hrest), natChars_ne_nil a, if_false, ne_eq,
    not_false_eq_true, charsVal_natChars]
  cases rest with
  | nil => rfl
  | cons c t =>
    simp only [numEnd, Bool.not_eq_eq_eq_not, Bool.not_true, Bool.or_eq_false_iff,
      decide_eq_false_iff_not] at hrest
    obtain ⟨⟨-, hdot⟩, hslash⟩ := hrest
    split
    · rename_i heq
      injection heq with h1 _
      exact absurd h1 hdot
    · rename_i heq
      injection heq with h1 _
      exact absurd h1 hslash
    · rfl

/-- Parsing a decimal body: the digit run of `i`, a point, and the
`k`-digit fraction of `f`. -/
theorem pNumCore_dec (i f k : Nat) (neg : Bool) (rest : List Char)
    (hk : 1 ≤ k) (hf : f < 10 ^ k) (hrest : numEnd rest = true) :
    pNumCore (natChars i ++ '.' :: (padZeros k (natChars f) ++ rest)) neg =
      some ((if neg then -((i : ℚ) + (f : ℚ) / (10 ^ k : ℚ))
             else (i : ℚ) + (f : ℚ) / (10 ^ k : ℚ)), rest) := by
  have hlen : (padZeros k (natChars f)).length = k :=
    padZeros_len k _ (natChars_len f k hf hk)
  have hne : padZeros k (natChars f) ≠ [] := by
    intro h
    rw [h] at hlen
    simp at hlen
    omega
  unfold pNumCore
  simp only [takeDigits_run (natChars i)
      ('.' :: (padZeros k (natChars f) ++ rest)) (natChars_digits i)
      (head_stop (by decide) _),
    natChars_ne_nil i, if_false, ne_eq, not_false_eq_true,
    takeDigits_run (padZeros k (natChars f)) rest
      (padZeros_digits k _ (natChars_digits f)) (numEnd_stop hrest),
    hne, padZeros_val, charsVal_natChars, hlen]

/-- Parsing a fraction body: the digit run of `a`, a slash, and the
digit run of `b`. -/
theorem pNumCore_frac (a b : Nat) (neg : Bool) (rest : List Char)
    (hrest : numEnd rest = true) :
    pNumCore (natChars a ++ '/' :: (natChars b ++ rest)) neg =
      some ((if neg then -((a : ℚ) / (b : ℚ)) else (a : ℚ) / (b : ℚ)), rest) := by
  unfold pNumCore
  simp only [takeDigits_run (natChars a)
      ('/' :: (natChars b ++ rest)) (natChars_digits a) (head_stop (by decide) _),
    natChars_ne_nil a, natChars_ne_nil b, if_false, ne_eq, not_false_eq_true,
    takeDigits_run (natChars b) rest (natChars_digits b) (numEnd_stop hrest),
    charsVal_natChars]

/-- The signed quotient of `|num|` and `den` is the rational itself. -/
theorem signed_abs_div (q : ℚ) :
    (if q.num < 0 then -((q.num.natAbs : ℚ) / (q.den : ℚ))
     else (q.num.natAbs : ℚ) / (q.den : ℚ)) = q := by
  by_cases h : q.num < 0
  · rw [if_pos h]
    have h2 : ((q.num.natAbs : ℚ)) = -(q.num : ℚ) := by
      have h3 : |q.num| = -q.num := abs_of_neg h
      rw [Int.cast_natAbs]
      exact_mod_cast h3
    rw [h2, neg_div, neg_neg, Rat.num_div_den]
  · rw [if_neg h]
    have h2 : ((q.num.natAbs : ℚ)) = (q.num : ℚ) := by
      have h3 : |q.num| = q.num := abs_of_nonneg (not_lt.mp h)
      rw [Int.cast_natAbs]
      exact_mod_cast h3
    rw [h2, Rat.num_div_den]

/-- A successful `dec10` really divides the power of ten. -/
theorem dec10_dvd {d k : Nat} (h : dec10 d = some k) : d ∣ 10 ^ k := by
  have h2 := List.find?_some h
  simp only [decide_eq_true_eq] at h2
  exact Nat.dvd_of_mod_eq_zero h2

/-- `dec10` returns a positive exponent for a denominator above one. -/
theorem dec10_one_le {d k : Nat} (hd : d ≠ 1) (h : dec10 d = some k) : 1 ≤ k := by
  by_contra hk
  push_neg at hk
  interval_cases k
  have h2 := dec10_dvd h
  rw [pow_zero, Nat.dvd_one] at h2
  exact hd h2

/-- The integer and fractional digits of the scaled numerator recombine
into `|num| / den`. -/
theorem dec_val (q : ℚ) (k : Nat) (hdvd : q.den ∣ 10 ^ k) :
    ((q.num.natAbs * (10 ^ k / q.den) / 10 ^ k : Nat) : ℚ) +
      ((q.num.natAbs * (10 ^ k / q.den) % 10 ^ k : Nat) : ℚ) / ((10 : ℚ) ^ k)
    = (q.num.natAbs : ℚ) / (q.den : ℚ) := by
  set m := q.num.natAbs * (10 ^ k / q.den) with hm
  have h10 : ((10 : ℚ) ^ k) ≠ 0 := by positivity
  have hden0 : ((q.den : ℚ)) ≠ 0 := Nat.cast_ne_zero.mpr q.den_nz
  have h1 : ((m / 10 ^ k : Nat) : ℚ) + ((m % 10 ^ k : Nat) : ℚ) / ((10 : ℚ) ^ k)
      = (m : ℚ) / ((10 : ℚ) ^ k) := by
    have h := congrArg (fun n : ℕ => (n : ℚ)) (Nat.div_add_mod m (10 ^ k))
    push_cast at h
    field_simp
    linarith [h]
  have h2 : (m : ℚ) = (q.num.natAbs : ℚ) * (((10 : ℚ) ^ k) / (q.den : ℚ)) := by
    have hcd : ((10 ^ k / q.den : Nat) : ℚ) = ((10 : ℚ) ^ k) / (q.den : ℚ) := by
      rw [Nat.cast_div hdvd hden0]
      push_cast
      ring
    rw [hm]
    push_cast [hcd]
    ring
  rw [h1, h2]
  field_simp
  ring

/-- A leading minus sign flips the sign of the parsed body. -/
theorem pNum_neg_cons (t : List Char) : pNum ('-' :: t) = pNumCore t true := rfl

/-- `pNum` on input whose head is a digit string defers to the
unsigned body. -/
theorem pNum_from_core (X tail : List Char)
    (hX : ∃ c t, X = c :: t ∧ isDigitCh c = true) :
    pNum (X ++ tail) = pNumCore (X ++ tail) false := by
  obtain ⟨c, t, rfl, hc⟩ := hX
  rw [List.cons_append]
  exact pNum_not_neg _ (digit_ne_minus hc)

/-- The number codec round-trip: `pNum` inverts `printNumL` whenever
the remainder cannot extend the number. -/
theorem pNum_print (q : ℚ) (rest : List Char) (hrest : numEnd rest = true) :
    pNum (printNumL q ++ rest) = some (q, rest) := by
  have habs := signed_abs_div q
  unfold printNumL
  by_cases hden : q.den = 1
  · rw [hden] at habs
    simp only [Nat.cast_one, div_one] at habs
    rw [if_pos hden]
    by_cases hneg : q.num < 0
    · rw [if_pos hneg] at habs
      simp only [if_pos hneg, List.singleton_append, List.cons_append, List.nil_append]
      rw [pNum_neg_cons, pNumCore_int _ true rest hrest]
      simp [habs]
    · rw [if_neg hneg] at habs
      simp only [if_neg hneg, List.nil_append]
      rw [pNum_from_core _ rest (natChars_head _), pNumCore_int _ false rest hrest]
      simp [habs]
  · rw [if_neg hden]
    cases hk : dec10 q.den with
    | some k =>
      have hdvd := dec10_dvd hk
      have hk1 := dec10_one_le hden hk
      have hfm : q.num.natAbs * (10 ^ k / q.den) % 10 ^ k < 10 ^ k :=
        Nat.mod_lt _ (by positivity)
      have hval := dec_val q k hdvd
      by_cases hneg : q.num < 0
      · rw [if_pos hneg] at habs
        simp only [if_pos hneg, hk, List.singleton_append, List.cons_append,
          List.nil_append, List.append_assoc]
        rw [pNum_neg_cons, pNumCore_dec _ _ k true rest hk1 hfm hrest]
        simp [hval, habs]
      · rw [if_neg hneg] at habs
        simp only [if_neg hneg, hk, List.nil_append, List.cons_append,
          List.append_assoc]
        rw [pNum_from_core _ _ (natChars_head _),
          pNumCore_dec _ _ k false rest hk1 hfm hrest]
        simp [hval, habs]
    | none =>
      by_cases hneg : q.num < 0
      · rw [if_pos hneg] at habs
        simp only [if_pos hneg, hk, List.singleton_append, List.cons_append,
          List.nil_append, List.append_assoc]
        rw [pNum_neg_cons, pNumCore_frac _ _ true rest hrest]
        simp [habs]
      · rw [if_neg hneg] at habs
        simp only [if_neg hneg, hk, List.nil_append, List.cons_append,
          List.append_assoc]
        rw [pNum_from_core _ _ (natChars_head _), pNumCore_frac _ _ false rest hrest]
        simp [habs]

/-! ## Round-trip development: strings -/

/-- Hexadecimal digits round-trip for values below 16. -/
theorem fromHex_toHex (n : Nat) (h : n < 16) : fromHex (toHex n) = some n := by
  interval_cases n <;> decide

/-- Un-escaping inverts escaping, one character at a time. -/
theorem pStr_escChar (c : Char) (t : List Char) :
    pStr (escChar c ++ t) =
      match pStr t with
      | some (s, r) => some (c :: s, r)
      | none => none := by
  unfold escChar
  split_ifs with h1 h2 h3 h4 h5 h6 h7 h8
  · subst h1; rfl
  · subst h2; rfl
  · subst h3; rfl
  · subst h4; rfl
  · subst h5; rfl
  · subst h6; rfl
  · subst h7; rfl
  · have hhi : fromHex (toHex (c.toNat / 16)) = some (c.toNat / 16) :=
      fromHex_toHex _ (by omega)
    have hlo : fromHex (toHex (c.toNat % 16)) = some (c.toNat % 16) :=
      fromHex_toHex _ (by omega)
    have h0 : fromHex '0' = some 0 := by decide
    show pStr ('\\' :: 'u' :: '0' :: '0' :: toHex (c.toNat / 16) :: toHex (c.toNat % 16) :: t)
        = _
    simp only [pStr, hhi, hlo, h0]
    have harith : ((0 * 16 + 0) * 16 + c.toNat / 16) * 16 + c.toNat % 16 = c.toNat := by
      omega
    rw [harith, Char.ofNat_toNat]
  · show pStr (c :: t) = _
    rw [pStr.eq_def]
    split
    all_goals
      first
        | rfl
        | (rename_i heq
           exact List.noConfusion heq)
        | (rename_i heq
           injection heq with hc ht
           first
             | exact absurd hc h1
             | exact absurd hc h2
             | exact absurd hc.symm h1
             | exact absurd hc.symm h2
             | (cases hc; cases ht; rfl))

/-- Un-escaping a whole escaped string stops at the closing quote. -/
theorem pStr_escList (s rest : List Char) :
    pStr (escList s ++ '"' :: rest) = some (s, rest) := by
  induction s with
  | nil => rfl
  | cons c t ih =>
    rw [show escList (c :: t) = escChar c ++ escList t from rfl, List.append_assoc,
      pStr_escChar, ih]

/-! ## Round-trip development: whitespace and dispatch -/

/-- `skipWs` does not touch a non-whitespace head. -/
theorem skipWs_cons_not {c : Char} {t : List Char} (h : isWsCh c = false) :
    skipWs (c :: t) = c :: t := by
  simp [skipWs, h]

/-- `skipWs` drops an all-whitespace prefix. -/
theorem skipWs_all (ws : List Char) (hws : ∀ c ∈ ws, isWsCh c = true)
    (cs : List Char) : skipWs (ws ++ cs) = skipWs cs := by
  induction ws with
  | nil => rfl
  | cons c t ih =>
    rw [List.cons_append]
    rw [show skipWs (c :: (t ++ cs)) = skipWs (t ++ cs) from by
      simp [skipWs, hws c (List.mem_cons_self ..)]]
    exact ih (fun x hx => hws x (List.mem_cons_of_mem _ hx))

/-- Space runs are all whitespace. -/
theorem spaces_allWs (n : Nat) : ∀ c ∈ spaces n, isWsCh c = true := by
  intro c hc
  rw [spaces] at hc
  rw [List.eq_of_mem_replicate hc]
  decide

/-- `skipWs` jumps over a newline, an indentation run, and lands on the
closing character. -/
theorem skipWs_close (ind : Nat) {c : Char} (rest : List Char)
    (hc : isWsCh c = false) :
    skipWs ('\n' :: (spaces ind ++ (c :: rest))) = c :: rest := by
  rw [show skipWs ('\n' :: (spaces ind ++ (c :: rest)))
      = skipWs (spaces ind ++ (c :: rest)) from by simp [skipWs, isWsCh]]
  rw [skipWs_all (spaces ind) (spaces_allWs ind), skipWs_cons_not hc]

/-- A digit is not whitespace. -/
theorem digit_not_ws {c : Char} (h : isDigitCh c = true) : isWsCh c = false := by
  by_contra hw
  rw [Bool.not_eq_false] at hw
  simp only [isWsCh, Bool.or_eq_true, decide_eq_true_eq] at hw
  rcases hw with ((rfl | rfl) | rfl) | rfl <;> exact absurd h (by decide)

/-- A digit is none of the characters the value dispatcher tests for. -/
theorem digit_not_key {c : Char} (h : isDigitCh c = true) :
    c ≠ 'n' ∧ c ≠ 't' ∧ c ≠ 'f' ∧ c ≠ '"' ∧ c ≠ '[' ∧ c ≠ '\x7b' := by
  refine ⟨?_, ?_, ?_, ?_, ?_, ?_⟩ <;> (rintro rfl; exact absurd h (by decide))

/-- The first character of a printed number: a minus sign or a digit. -/
theorem printNumL_head (q : ℚ) :
    ∃ c t, printNumL q = c :: t ∧ (c = '-' ∨ isDigitCh c = true) := by
  unfold printNumL
  by_cases hneg : q.num < 0
  · exact ⟨'-', _, by rw [if_pos hneg, List.singleton_append], Or.inl rfl⟩
  · rw [if_neg hneg, List.nil_append]
    by_cases hden : q.den = 1
    · rw [if_pos hden]
      obtain ⟨c, t, hct, hc⟩ := natChars_head q.num.natAbs
      exact ⟨c, t, hct, Or.inr hc⟩
    · rw [if_neg hden]
      cases hk : dec10 q.den with
      | some k =>
        obtain ⟨c, t, hct, hc⟩ := natChars_head (q.num.natAbs * (10 ^ k / q.den) / 10 ^ k)
        refine ⟨c, t ++ '.' :: padZeros k (natChars (q.num.natAbs * (10 ^ k / q.den) % 10 ^ k)),
          ?_, Or.inr hc⟩
        show natChars (q.num.natAbs * (10 ^ k / q.den) / 10 ^ k) ++
          '.' :: padZeros k (natChars (q.num.natAbs * (10 ^ k / q.den) % 10 ^ k)) = _
        rw [hct, List.cons_append]
      | none =>
        obtain ⟨c, t, hct, hc⟩ := natChars_head q.num.natAbs
        refine ⟨c, t ++ '/' :: natChars q.den, ?_, Or.inr hc⟩
        show natChars q.num.natAbs ++ '/' :: natChars q.den = _
        rw [hct, List.cons_append]

/-- The first character of any serialized value: never whitespace, and
never a closing bracket, closing brace, or comma. -/
theorem emitVal_head (ind : Nat) (j : Json) :
    ∃ c t, emitVal ind j = c :: t ∧ isWsCh c = false ∧ c ≠ ']' ∧ c ≠ '\x7d' := by
  have hfix : ∀ c ∈ ['n', 't', 'f', '"', '[', '\x7b'],
      isWsCh c = false ∧ c ≠ ']' ∧ c ≠ '\x7d' := by decide
  cases j with
  | null => exact ⟨'n', _, rfl, hfix 'n' (by decide)⟩
  | jb b =>
    cases b with
    | true => exact ⟨'t', _, rfl, hfix 't' (by decide)⟩
    | false => exact ⟨'f', _, rfl, hfix 'f' (by decide)⟩
  | js s => exact ⟨'"', _, rfl, hfix '"' (by decide)⟩
  | jarr l =>
    cases l with
    | nil => exact ⟨'[', _, rfl, hfix '[' (by decide)⟩
    | cons x xs => exact ⟨'[', _, rfl, hfix '[' (by decide)⟩
  | jobj l =>
    cases l with
    | nil => exact ⟨'\x7b', _, rfl, hfix '\x7b' (by decide)⟩
    | cons m ms => exact ⟨'\x7b', _, rfl, hfix '\x7b' (by decide)⟩
  | jn q =>
    obtain ⟨c, t, hct, hc⟩ := printNumL_head q
    refine ⟨c, t, hct, ?_, ?_, ?_⟩
    · rcases hc with rfl | hd
      · decide
      · exact digit_not_ws hd
    · rcases hc with rfl | hd
      · decide
      · rintro rfl; exact absurd hd (by decide)
    · rcases hc with rfl | hd
      · decide
      · rintro rfl; exact absurd hd (by decide)

/-- `skipWs` leaves a whitespace-prefixed serialized value at the
value's first character. -/
theorem skipWs_emit (ws : List Char) (ind : Nat) (j : Json) (rest : List Char)
    (hws : ∀ c ∈ ws, isWsCh c = true) :
    skipWs (ws ++ (emitVal ind j ++ rest)) = emitVal ind j ++ rest := by
  rw [skipWs_all ws hws]
  obtain ⟨c, t, hct, hc, -, -⟩ := emitVal_head ind j
  rw [hct, List.cons_append, skipWs_cons_not hc]

/-- The value dispatcher sends an input headed by a sign or digit to
the number parser. -/
theorem pVal_num_dispatch (f : Nat) (c : Char) (t : List Char)
    (hws : isWsCh c = false) (hn : c ≠ 'n') (ht : c ≠ 't') (hf : c ≠ 'f')
    (hq : c ≠ '"') (hbk : c ≠ '[') (hbc : c ≠ '\x7b')
    (hg : (c = '-' || isDigitCh c) = true) :
    pVal (f + 1) (c :: t) =
      match pNum (c :: t) with
      | some (q, r1) => some (Json.jn q, r1)
      | none => none := by
  simp only [pVal, skipWs_cons_not hws]
  simp [hn, ht, hf, hq, hbk, hbc, hg]

/-- `skipWs` is idempotent. -/
theorem skipWs_idem (cs : List Char) : skipWs (skipWs cs) = skipWs cs := by
  induction cs with
  | nil => rfl
  | cons c t ih =>
    by_cases h : isWsCh c = true
    · rw [show skipWs (c :: t) = skipWs t from by simp [skipWs, h]]
      exact ih
    · rw [Bool.not_eq_true] at h
      rw [skipWs_cons_not h, skipWs_cons_not h]

/-- `pVal` ignores leading whitespace. -/
theorem pVal_skipWs (f : Nat) (cs : List Char) : pVal f cs = pVal f (skipWs cs) := by
  cases f with
  | zero => rfl
  | succ f =>
    simp only [pVal, skipWs_idem]

/-- `pElems` ignores leading whitespace (its first step parses a value,
which does). -/
theorem pElems_skipWs (f : Nat) (cs : List Char) :
    pElems f cs = pElems f (skipWs cs) := by
  cases f with
  | zero => rfl
  | succ f =>
    simp only [pElems, ← pVal_skipWs]

/-- `pMembers` ignores leading whitespace. -/
theorem pMembers_skipWs (f : Nat) (cs : List Char) :
    pMembers f cs = pMembers f (skipWs cs) := by
  cases f with
  | zero => rfl
  | succ f =>
    simp only [pMembers, skipWs_idem]

/-- A comma cannot extend a number. -/
theorem numEnd_comma (cs : List Char) : numEnd (',' :: cs) = true := rfl

/-- A newline cannot extend a number. -/
theorem numEnd_nl (cs : List Char) : numEnd ('\n' :: cs) = true := rfl

/-- A closing brace cannot extend a number. -/
theorem numEnd_cbrace (cs : List Char) : numEnd ('\x7d' :: cs) = true := rfl

/-- The array branch of `pVal`, when the first element does not begin
with `]`, reduces to wrapping `pElems`. -/
theorem pVal_arr_step (f : Nat) (r : List Char) (c : Char) (t : List Char)
    (hsk : skipWs r = c :: t) (hne : c ≠ ']') :
    pVal (f + 1) ('[' :: r) =
      match pElems f (c :: t) with
      | some (es, r2) => some (Json.jarr es, r2)
      | none => none := by
  simp only [pVal, skipWs_cons_not (show isWsCh '[' = false by decide), hsk]
  simp [hne]

/-- The object branch of `pVal`, when the first member does not begin
with a closing brace, reduces to wrapping `pMembers`. -/
theorem pVal_obj_step (f : Nat) (r : List Char) (c : Char) (t : List Char)
    (hsk : skipWs r = c :: t) (hne : c ≠ '\x7d') :
    pVal (f + 1) ('\x7b' :: r) =
      match pMembers f (c :: t) with
      | some (ms, r2) => some (Json.jobj ms, r2)
      | none => none := by
  simp only [pVal, skipWs_cons_not (show isWsCh '\x7b' = false by decide), hsk]
  simp [hne]

/-- Skipping the newline and indentation before the first array element
lands on that element's first character, which closes nothing. -/
theorem skipWs_elemsBlock (i : Nat) (x : Json) (xs : List Json) (Z : List Char) :
    ∃ c t, skipWs ('\n' :: (emitElems i (x :: xs) ++ Z)) = c :: t
      ∧ c ≠ ']' ∧ c ≠ '\x7d' := by
  obtain ⟨c, t, hct, hws, hbr, hbc⟩ := emitVal_head i x
  have hnl : skipWs ('\n' :: (emitElems i (x :: xs) ++ Z))
      = skipWs (emitElems i (x :: xs) ++ Z) := by
    simp [skipWs, isWsCh]
  cases xs with
  | nil =>
    refine ⟨c, t ++ Z, ?_, hbr, hbc⟩
    rw [hnl, show emitElems i [x] = spaces i ++ emitVal i x from by simp [emitElems],
      List.append_assoc, skipWs_all (spaces i) (spaces_allWs i), hct, List.cons_append,
      skipWs_cons_not hws]
  | cons y ys =>
    refine ⟨c, t ++ (',' :: '\n' :: emitElems i (y :: ys) ++ Z), ?_, hbr, hbc⟩
    rw [hnl, show emitElems i (x :: y :: ys)
        = spaces i ++ emitVal i x ++ ',' :: '\n' :: emitElems i (y :: ys) from by
      simp [emitElems]]
    rw [List.append_assoc, List.append_assoc,
      skipWs_all (spaces i) (spaces_allWs i), hct, List.cons_append,
      skipWs_cons_not hws]

/-- Skipping the newline and indentation before the first object member
lands on its opening quote. -/
theorem skipWs_membersBlock (i : Nat) (m : String × Json)
    (ms : List (String × Json)) (Z : List Char) :
    ∃ t, skipWs ('\n' :: (emitMembers i (m :: ms) ++ Z)) = '"' :: t := by
  obtain ⟨k, v⟩ := m
  have hnl : skipWs ('\n' :: (emitMembers i ((k, v) :: ms) ++ Z))
      = skipWs (emitMembers i ((k, v) :: ms) ++ Z) := by
    simp [skipWs, isWsCh]
  cases ms with
  | nil =>
    refine ⟨escList k.data ++ ('"' :: (':' :: (' ' :: emitVal i v))) ++ Z, ?_⟩
    rw [hnl, show emitMembers i [(k, v)]
        = spaces i ++ (escStr k ++ ':' :: ' ' :: emitVal i v) from by simp [emitMembers]]
    rw [List.append_assoc, skipWs_all (spaces i) (spaces_allWs i)]
    rw [show escStr k ++ ':' :: ' ' :: emitVal i v
        = '"' :: (escList k.data ++ ('"' :: (':' :: (' ' :: emitVal i v)))) from by
      simp [escStr]]
    rw [List.cons_append, skipWs_cons_not (show isWsCh '"' = false by decide)]
  | cons m2 ms2 =>
    refine ⟨escList k.data ++ ('"' :: (':' :: (' ' :: emitVal i v)))
      ++ ',' :: '\n' :: emitMembers i (m2 :: ms2) ++ Z, ?_⟩
    rw [hnl, show emitMembers i ((k, v) :: m2 :: ms2)
        = spaces i ++ (escStr k ++ ':' :: ' ' :: emitVal i v)
          ++ ',' :: '\n' :: emitMembers i (m2 :: ms2) from by simp [emitMembers]]
    rw [List.append_assoc, List.append_assoc,
      skipWs_all (spaces i) (spaces_allWs i)]
    rw [show escStr k ++ ':' :: ' ' :: emitVal i v
        = '"' :: (escList k.data ++ ('"' :: (':' :: (' ' :: emitVal i v)))) from by
      simp [escStr]]
    rw [List.cons_append, skipWs_cons_not (show isWsCh '"' = false by decide)]
    simp

/-- The singleton newline prefix is all whitespace. -/
theorem allWs_nl : ∀ c ∈ ['\n'], isWsCh c = true := by
  intro c hc
  rw [List.mem_singleton] at hc
  subst hc
  decide

/-- The singleton space prefix is all whitespace. -/
theorem allWs_space : ∀ c ∈ [' '], isWsCh c = true := by
  intro c hc
  rw [List.mem_singleton] at hc
  subst hc
  decide

/-- Whitespace prefixes concatenate. -/
theorem allWs_append (ws : List Char) (hws : ∀ c ∈ ws, isWsCh c = true) (i : Nat) :
    ∀ c ∈ ws ++ spaces i, isWsCh c = true := by
  intro c hc
  rcases List.mem_append.mp hc with h | h
  · exact hws c h
  · exact spaces_allWs i c h

/-! ## Round-trip development: the main inversion -/

mutual

/-- Parsing a serialized value (after any whitespace prefix) recovers
it exactly, leaving the remainder untouched. -/
theorem inv_val : ∀ (j : Json) (fuel ind : Nat) (ws rest : List Char),
    (∀ c ∈ ws, isWsCh c = true) →
    (emitVal ind j).length < fuel →
    numEnd rest = true →
    pVal fuel (ws ++ (emitVal ind j ++ rest)) = some (j, rest)
  | .null, fuel, ind, ws, rest, hws, hf, _ => by
    cases fuel with
    | zero => exact absurd hf (Nat.not_lt_zero _)
    | succ f =>
      rw [pVal_skipWs, skipWs_emit ws ind .null rest hws]
      rw [show emitVal ind .null = ['n', 'u', 'l', 'l'] from by simp [emitVal]]
      simp [pVal, skipWs, isWsCh]
  | .jb b, fuel, ind, ws, rest, hws, hf, _ => by
    cases fuel with
    | zero => exact absurd hf (Nat.not_lt_zero _)
    | succ f =>
      rw [pVal_skipWs, skipWs_emit ws ind (.jb b) rest hws]
      cases b with
      | false =>
        rw [show emitVal ind (.jb false) = ['f', 'a', 'l', 's', 'e'] from by simp [emitVal]]
        simp [pVal, skipWs, isWsCh]
      | true =>
        rw [show emitVal ind (.jb true) = ['t', 'r', 'u', 'e'] from by simp [emitVal]]
        simp [pVal, skipWs, isWsCh]
  | .jn q, fuel, ind, ws, rest, hws, hf, hrest => by
    cases fuel with
    | zero => exact absurd hf (Nat.not_lt_zero _)
    | succ f =>
      rw [pVal_skipWs, skipWs_emit ws ind (.jn q) rest hws]
      rw [show emitVal ind (.jn q) = printNumL q from by simp [emitVal]]
      obtain ⟨c, t, hct, hc⟩ := printNumL_head q
      have hfacts : isWsCh c = false ∧ c ≠ 'n' ∧ c ≠ 't' ∧ c ≠ 'f' ∧ c ≠ '"' ∧
          c ≠ '[' ∧ c ≠ '\x7b' ∧ (c = '-' || isDigitCh c) = true := by
        rcases hc with rfl | hd
        · exact ⟨by decide, by decide, by decide, by decide, by decide, by decide,
            by decide, by decide⟩
        · obtain ⟨a1, a2, a3, a4, a5, a6⟩ := digit_not_key hd
          exact ⟨digit_not_ws hd, a1, a2, a3, a4, a5, a6, by simp [hd]⟩
      obtain ⟨b0, b1, b2, b3, b4, b5, b6, b7⟩ := hfacts
      rw [hct, List.cons_append, pVal_num_dispatch f c (t ++ rest) b0 b1 b2 b3 b4 b5 b6 b7,
        ← List.cons_append, ← hct, pNum_print q rest hrest]
  | .js s, fuel, ind, ws, rest, hws, hf, _ => by
    cases fuel with
    | zero => exact absurd hf (Nat.not_lt_zero _)
    | succ f =>
      rw [pVal_skipWs, skipWs_emit ws ind (.js s) rest hws]
      rw [show emitVal ind (.js s) = '"' :: (escList s.data ++ ['"']) from by
        simp [emitVal, escStr]]
      rw [List.cons_append, List.append_assoc, List.singleton_append]
      simp only [pVal, skipWs_cons_not (show isWsCh '"' = false by decide)]
      rw [pStr_escList s.data rest]
  | .jarr [], fuel, ind, ws, rest, hws, hf, _ => by
    cases fuel with
    | zero => exact absurd hf (Nat.not_lt_zero _)
    | succ f =>
      rw [pVal_skipWs, skipWs_emit ws ind (.jarr []) rest hws]
      rw [show emitVal ind (.jarr []) = ['[', ']'] from by simp [emitVal]]
      simp [pVal, skipWs, isWsCh]
  | .jarr (x :: xs), fuel, ind, ws, rest, hws, hf, hrest => by
    cases fuel with
    | zero => exact absurd hf (Nat.not_lt_zero _)
    | succ f =>
      rw [pVal_skipWs, skipWs_emit ws ind (.jarr (x :: xs)) rest hws]
      rw [show emitVal ind (.jarr (x :: xs)) = '[' :: '\n' ::
          (emitElems (ind + 2) (x :: xs) ++ '\n' :: (spaces ind ++ [']'])) from by
        simp [emitVal]]
      rw [List.cons_append, List.cons_append, List.append_assoc, List.cons_append,
        List.append_assoc, List.singleton_append]
      obtain ⟨c, t, hsk, hbr, -⟩ :=
        skipWs_elemsBlock (ind + 2) x xs ('\n' :: (spaces ind ++ (']' :: rest)))
      rw [pVal_arr_step f _ c t hsk hbr]
      rw [show pElems f (c :: t)
          = pElems f ('\n' :: (emitElems (ind + 2) (x :: xs)
              ++ '\n' :: (spaces ind ++ (']' :: rest)))) from by
        rw [← hsk, ← pElems_skipWs]]
      have hfe : (emitElems (ind + 2) (x :: xs)).length + 1 < f := by
        rw [show emitVal ind (.jarr (x :: xs)) = '[' :: '\n' ::
            (emitElems (ind + 2) (x :: xs) ++ '\n' :: (spaces ind ++ [']'])) from by
          simp [emitVal]] at hf
        simp only [List.length_cons, List.length_append] at hf
        omega
      have key := inv_elems x xs f (ind + 2) ind ['\n'] rest allWs_nl hfe hrest
      simp only [List.singleton_append] at key
      rw [key]
  | .jobj [], fuel, ind, ws, rest, hws, hf, _ => by
    cases fuel with
    | zero => exact absurd hf (Nat.not_lt_zero _)
    | succ f =>
      rw [pVal_skipWs, skipWs_emit ws ind (.jobj []) rest hws]
      rw [show emitVal ind (.jobj []) = ['\x7b', '\x7d'] from by simp [emitVal]]
      simp [pVal, skipWs, isWsCh]
  | .jobj (m :: ms), fuel, ind, ws, rest, hws, hf, hrest => by
    cases fuel with
    | zero => exact absurd hf (Nat.not_lt_zero _)
    | succ f =>
      rw [pVal_skipWs, skipWs_emit ws ind (.jobj (m :: ms)) rest hws]
      rw [show emitVal ind (.jobj (m :: ms)) = '\x7b' :: '\n' ::
          (emitMembers (ind + 2) (m :: ms) ++ '\n' :: (spaces ind ++ ['\x7d'])) from by
        simp [emitVal]]
      rw [List.cons_append, List.cons_append, List.append_assoc, List.cons_append,
        List.append_assoc, List.singleton_append]
      obtain ⟨t, hsk⟩ :=
        skipWs_membersBlock (ind + 2) m ms ('\n' :: (spaces ind ++ ('\x7d' :: rest)))
      rw [pVal_obj_step f _ '"' t hsk (by decide)]
      rw [show pMembers f ('"' :: t)
          = pMembers f ('\n' :: (emitMembers (ind + 2) (m :: ms)
              ++ '\n' :: (spaces ind ++ ('\x7d' :: rest)))) from by
        rw [← hsk, ← pMembers_skipWs]]
      have hfm : (emitMembers (ind + 2) (m :: ms)).length + 1 < f := by
        rw [show emitVal ind (.jobj (m :: ms)) = '\x7b' :: '\n' ::
            (emitMembers (ind + 2) (m :: ms) ++ '\n' :: (spaces ind ++ ['\x7d'])) from by
          simp [emitVal]] at hf
        simp only [List.length_cons, List.length_append] at hf
        omega
      have key := inv_members m ms f (ind + 2) ind ['\n'] rest allWs_nl hfm hrest
      simp only [List.singleton_append] at key
      rw [key]
termination_by j _ _ _ _ _ _ _ => sizeOf j

/-- Parsing serialized array elements up to the closing bracket
recovers them all. -/
theorem inv_elems : ∀ (x : Json) (xs : List Json) (fuel i ind : Nat)
    (ws rest : List Char),
    (∀ c ∈ ws, isWsCh c = true) →
    (emitElems i (x :: xs)).length + 1 < fuel →
    numEnd rest = true →
    pElems fuel (ws ++ (emitElems i (x :: xs)
        ++ ('\n' :: (spaces ind ++ (']' :: rest)))))
      = some (x :: xs, rest)
  | x, [], fuel, i, ind, ws, rest, hws, hf, hrest => by
    cases fuel with
    | zero => exact absurd hf (Nat.not_lt_zero _)
    | succ f =>
      have hfx : (emitVal i x).length < f := by
        rw [show emitElems i [x] = spaces i ++ emitVal i x from by simp [emitElems]] at hf
        simp only [List.length_append] at hf
        omega
      have hv := inv_val x f i (ws ++ spaces i) ('\n' :: (spaces ind ++ (']' :: rest)))
        (allWs_append ws hws i) hfx (numEnd_nl _)
      simp only [pElems]
      rw [show ws ++ (emitElems i [x] ++ ('\n' :: (spaces ind ++ (']' :: rest))))
          = (ws ++ spaces i) ++ (emitVal i x ++ ('\n' :: (spaces ind ++ (']' :: rest))))
          from by simp [emitElems]]
      simp only [hv]
      rw [skipWs_close ind rest (by decide)]
      rfl
  | x, y :: ys, fuel, i, ind, ws, rest, hws, hf, hrest => by
    cases fuel with
    | zero => exact absurd hf (Nat.not_lt_zero _)
    | succ f =>
      have hlen : (emitElems i (x :: y :: ys)).length
          = i + (emitVal i x).length + 2 + (emitElems i (y :: ys)).length := by
        rw [show emitElems i (x :: y :: ys)
            = spaces i ++ emitVal i x ++ ',' :: '\n' :: emitElems i (y :: ys) from by
          simp [emitElems]]
        simp only [List.length_append, List.length_cons, spaces, List.length_replicate]
        omega
      have hfx : (emitVal i x).length < f := by omega
      have hfy : (emitElems i (y :: ys)).length + 1 < f := by omega
      have hv := inv_val x f i (ws ++ spaces i)
        (',' :: ('\n' :: (emitElems i (y :: ys)
          ++ ('\n' :: (spaces ind ++ (']' :: rest))))))
        (allWs_append ws hws i) hfx (numEnd_comma _)
      simp only [pElems]
      rw [show ws ++ (emitElems i (x :: y :: ys) ++ ('\n' :: (spaces ind ++ (']' :: rest))))
          = (ws ++ spaces i) ++ (emitVal i x ++ (',' :: ('\n' :: (emitElems i (y :: ys)
              ++ ('\n' :: (spaces ind ++ (']' :: rest))))))) from by simp [emitElems]]
      simp only [hv]
      rw [skipWs_cons_not (show isWsCh ',' = false by decide)]
      have key := inv_elems y ys f i ind ['\n'] rest allWs_nl hfy hrest
      simp only [List.singleton_append] at key
      simp only [key]
termination_by x xs _ _ _ _ _ _ _ _ => sizeOf x + sizeOf xs

/-- Parsing serialized object members up to the closing brace recovers
them all. -/
theorem inv_members : ∀ (m : String × Json) (ms : List (String × Json))
    (fuel i ind : Nat) (ws rest : List Char),
    (∀ c ∈ ws, isWsCh c = true) →
    (emitMembers i (m :: ms)).length + 1 < fuel →
    numEnd rest = true →
    pMembers fuel (ws ++ (emitMembers i (m :: ms)
        ++ ('\n' :: (spaces ind ++ ('\x7d' :: rest)))))
      = some (m :: ms, rest)
  | (k, v), [], fuel, i, ind, ws, rest, hws, hf, hrest => by
    cases fuel with
    | zero => exact absurd hf (Nat.not_lt_zero _)
    | succ f =>
      have hfv : (emitVal i v).length < f := by
        rw [show emitMembers i [(k, v)]
            = spaces i ++ (escStr k ++ ':' :: ' ' :: emitVal i v) from by
          simp [emitMembers]] at hf
        simp only [List.length_append, List.length_cons] at hf
        omega
      have hv := inv_val v f i [' '] ('\n' :: (spaces ind ++ ('\x7d' :: rest)))
        allWs_space hfv (numEnd_nl _)
      simp only [List.singleton_append] at hv
      simp only [pMembers]
      rw [show ws ++ (emitMembers i [(k, v)] ++ ('\n' :: (spaces ind ++ ('\x7d' :: rest))))
          = (ws ++ spaces i) ++ ('"' :: (escList k.data ++ ('"' :: (':' :: (' ' ::
              (emitVal i v ++ ('\n' :: (spaces ind ++ ('\x7d' :: rest))))))))) from by
        simp [emitMembers, escStr]]
      rw [skipWs_all (ws ++ spaces i) (allWs_append ws hws i),
        skipWs_cons_not (show isWsCh '"' = false by decide)]
      simp only [pStr_escList k.data,
        skipWs_cons_not (show isWsCh ':' = false by decide), hv,
        skipWs_close ind rest (show isWsCh '\x7d' = false by decide)]
  | (k, v), m2 :: ms2, fuel, i, ind, ws, rest, hws, hf, hrest => by
    cases fuel with
    | zero => exact absurd hf (Nat.not_lt_zero _)
    | succ f =>
      have hlen : (emitMembers i ((k, v) :: m2 :: ms2)).length
          = i + (escStr k).length + 2 + (emitVal i v).length + 2
            + (emitMembers i (m2 :: ms2)).length := by
        rw [show emitMembers i ((k, v) :: m2 :: ms2)
            = spaces i ++ (escStr k ++ ':' :: ' ' :: emitVal i v)
              ++ ',' :: '\n' :: emitMembers i (m2 :: ms2) from by simp [emitMembers]]
        simp only [List.length_append, List.length_cons, spaces, List.length_replicate]
        omega
      have hfv : (emitVal i v).length < f := by omega
      have hfm : (emitMembers i (m2 :: ms2)).length + 1 < f := by omega
      have hv := inv_val v f i [' ']
        (',' :: ('\n' :: (emitMembers i (m2 :: ms2)
          ++ ('\n' :: (spaces ind ++ ('\x7d' :: rest))))))
        allWs_space hfv (numEnd_comma _)
      simp only [List.singleton_append] at hv
      simp only [pMembers]
      rw [show ws ++ (emitMembers i ((k, v) :: m2 :: ms2)
            ++ ('\n' :: (spaces ind ++ ('\x7d' :: rest))))
          = (ws ++ spaces i) ++ ('"' :: (escList k.data ++ ('"' :: (':' :: (' ' ::
              (emitVal i v ++ (',' :: ('\n' :: (emitMembers i (m2 :: ms2)
                ++ ('\n' :: (spaces ind ++ ('\x7d' :: rest)))))))))))) from by
        simp [emitMembers, escStr]]
      rw [skipWs_all (ws ++ spaces i) (allWs_append ws hws i),
        skipWs_cons_not (show isWsCh '"' = false by decide)]
      have key := inv_members m2 ms2 f i ind ['\n'] rest allWs_nl hfm hrest
      simp only [List.singleton_append] at key
      simp only [pStr_escList k.data,
        skipWs_cons_not (show isWsCh ':' = false by decide), hv,
        skipWs_cons_not (show isWsCh ',' = false by decide), key]
termination_by m ms _ _ _ _ _ _ _ _ => sizeOf m + sizeOf ms

end

/-! ## Round-trip development: decoding the data model -/

/-- Decoding inverts encoding for score values. -/
theorem score_fromJson_toJson (s : Score) : Score.fromJson s.toJson = some s := by
  cases s <;> rfl

/-- Decoding inverts encoding for audit results. -/
theorem auditResult_fromJson_toJson (a : AuditResult) :
    AuditResult.fromJson a.toJson = some a := by
  obtain ⟨dv, db, sc, de, ei⟩ := a
  cases sc <;> cases ei <;> rfl

/-- Decoding inverts encoding for subitems. -/
theorem subItem_fromJson_toJson (s : SubItem) :
    SubItem.fromJson s.toJson = some s := by
  cases s with
  | ref key => rfl
  | audit a =>
    obtain ⟨dv, db, sc, de, ei⟩ := a
    cases sc <;> cases ei <;> rfl

/-- Decoding a mapped list inverts it elementwise. -/
theorem listFromJson_map {α : Type} (f : Json → Option α) (g : α → Json)
    (hfg : ∀ a, f (g a) = some a) (l : List α) :
    listFromJson f (l.map g) = some l := by
  induction l with
  | nil => rfl
  | cons a t ih => simp [listFromJson, hfg a, ih]

/-- Decoding inverts encoding for aggregation result items. -/
theorem aggItem_fromJson_toJson (item : AggregationResultItem) :
    AggregationResultItem.fromJson item.toJson = some item := by
  obtain ⟨ov, nm, sc, subs⟩ := item
  simp [AggregationResultItem.toJson, AggregationResultItem.fromJson,
    listFromJson_map SubItem.fromJson SubItem.toJson subItem_fromJson_toJson]

/-- Decoding inverts encoding for aggregations. -/
theorem aggregation_fromJson_toJson (a : Aggregation) :
    Aggregation.fromJson a.toJson = some a := by
  obtain ⟨nm, items⟩ := a
  simp [Aggregation.toJson, Aggregation.fromJson,
    listFromJson_map AggregationResultItem.fromJson AggregationResultItem.toJson
      aggItem_fromJson_toJson]

/-- Decoding inverts encoding for the audits mapping. -/
theorem auditsFromJson_map (l : List (String × AuditResult)) :
    auditsFromJson (l.map (fun p => (p.1, p.2.toJson))) = some l := by
  induction l with
  | nil => rfl
  | cons p t ih =>
    obtain ⟨k, a⟩ := p
    simp [auditsFromJson, auditResult_fromJson_toJson, ih]

/-- Decoding inverts encoding for the whole results tree. -/
theorem results_fromJson_toJson (r : Results) :
    Results.fromJson r.toJson = some r := by
  obtain ⟨u, ags, auds, v⟩ := r
  simp [Results.toJson, Results.fromJson,
    listFromJson_map Aggregation.fromJson Aggregation.toJson aggregation_fromJson_toJson,
    auditsFromJson_map]

/-! ## Claims -/

/-- The integer-arithmetic formula inside `toFixed0` is indeed
`⌊q + 1/2⌋`, the nearest integer with ties going up. -/
theorem toFixed0_eq_floor (q : ℚ) :
    toFixed0 q = String.mk (intChars ⌊q + 1/2⌋) := by
  unfold toFixed0
  congr 2
  have hden : ((q.den : ℚ)) ≠ 0 := Nat.cast_ne_zero.mpr q.den_nz
  have hq : q + 1/2 = ((2 * q.num + (q.den : Int) : Int) : ℚ) / ((2 * q.den : Nat) : ℚ) := by
    conv_lhs => rw [← Rat.num_div_den q]
    push_cast
    field_simp
    ring
  rw [hq, Rat.floor_intCast_div_natCast]
  push_cast
  ring_nf

/-- C4: the score colorizer is total over booleans, numbers and strings
(each variant produces the stated token), and a numeric score selects
exactly one of three tiers with boundaries at 45 and 75: at most 45 is
red, above 45 and at most 75 is yellow, above 75 is green — in
particular 45 is red, 75 and 46 are yellow, 76 is green — and the
numeric output is the colour code, the value, the suffix and the reset
code in that order. -/
theorem claim_C4_colorizer_tiers (x : ℚ) (b : Bool) (s suf : String) :
    formatAggregationResultItem (.n x) suf =
      (if 75 < x then green else if 45 < x then yellow else red) ++
        numToString x ++ suf ++ reset
    ∧ formatAggregationResultItem (.b b) suf =
        (if b then green ++ "✓" ++ reset else red ++ "✘" ++ reset)
    ∧ formatAggregationResultItem (.s s) suf = purple ++ s ++ reset
    ∧ formatAggregationResultItem (.n 45) "" = red ++ numToString 45 ++ "" ++ reset
    ∧ formatAggregationResultItem (.n 75) "" = yellow ++ numToString 75 ++ "" ++ reset
    ∧ formatAggregationResultItem (.n 46) "" = yellow ++ numToString 46 ++ "" ++ reset
    ∧ formatAggregationResultItem (.n 76) "" = green ++ numToString 76 ++ "" ++ reset := by
  refine ⟨?_, ?_, rfl, ?_, ?_, ?_, ?_⟩
  · by_cases h75 : 75 < x <;> by_cases h45 : 45 < x
    · simp [formatAggregationResultItem, h75, h45]
    · linarith
    · simp [formatAggregationResultItem, h75, h45]
    · simp [formatAggregationResultItem, h75, h45]
  · cases b <;> rfl
  all_goals norm_num [formatAggregationResultItem]

/-- C10: the literal destination `"stdout"` is indistinguishable from
an empty destination — `write` behaves identically on both — and a
`write` to destination `"stdout"` never delivers bytes to a file. -/
theorem claim_C10_stdout_sentinel (fmt : Formatters) (hg : Results → String)
    (r : Results) (mode : String) (fs : Fs) :
    write fmt hg r mode "stdout" fs = write fmt hg r mode "" fs
    ∧ deliveredFile (write fmt hg r mode "stdout" fs) = false := by
  have hpath : checkOutputPath "stdout" = checkOutputPath "" := rfl
  constructor
  · simp only [write, hpath]
  · simp only [write]
    cases createOutput fmt hg r (modeFromName mode) with
    | error e => rfl
    | ok out => rfl

/-- C7: a subitem given as a string key that the audits mapping
resolves renders exactly the same fragment as the resolved audit result
given inline. -/
theorem claim_C7_ref_equals_inline (fmt : Formatters) (r : Results)
    (key : String) (a : AuditResult) (h : lookupAudit r.audits key = some a) :
    renderSubItem fmt r (.ref key) = renderSubItem fmt r (.audit a) := by
  simp [renderSubItem, h]

/-- Witness for C7 at the concrete tree `resK`, whose audits map sends
`"k"` to `audX`. -/
theorem claim_C7_ref_equals_inline_witness :
    lookupAudit resK.audits "k" = some audX
    ∧ renderSubItem noFmt resK (.ref "k") = renderSubItem noFmt resK (.audit audX) :=
  ⟨rfl, claim_C7_ref_equals_inline noFmt resK "k" audX rfl⟩

/-- C9: an item with `scored = false` emits no percentage token: its
rendered fragment does not depend on `overall` at all, and its name
line carries an empty score token. -/
theorem claim_C9_unscored_no_percent (fmt : Formatters) (r : Results)
    (item : AggregationResultItem) (h : item.scored = false) :
    (∀ q : ℚ, renderItem fmt r item =
      renderItem fmt r ⟨q, item.name, item.scored, item.subItems⟩)
    ∧ renderItem fmt r item =
        (do
          let subs ← renderList (renderSubItem fmt r) item.subItems
          .ok ((if item.name ≠ "" then bold ++ item.name ++ reset ++ ": " ++ "\n"
                else "") ++ subs ++ "\n")) := by
  constructor
  · intro q
    simp [renderItem, h]
  · simp [renderItem, h]

/-- Witness for C9: a concrete unscored item with positive `overall`. -/
theorem claim_C9_unscored_no_percent_witness :
    renderItem noFmt resK ⟨0.8, "Item", false, []⟩ =
      renderItem noFmt resK ⟨0, "Item", false, []⟩ :=
  (claim_C9_unscored_no_percent noFmt resK ⟨0.8, "Item", false, []⟩ rfl).1 0

/-- C8: standard-output delivery writes the composed string followed by
exactly one newline, while file delivery writes the composed string
alone as the file contents. -/
theorem claim_C8_delivery_payloads (fmt : Formatters) (hg : Results → String)
    (r : Results) (mode path : String) (fs : Fs) (out : String)
    (hc : createOutput fmt hg r (modeFromName mode) = .ok out) :
    write fmt hg r mode "" fs = .ok (r, .toStdout (out ++ "\n"))
    ∧ (path ≠ "" → path ≠ "stdout" → fs path = none →
        write fmt hg r mode path fs = .ok (r, .toFile path out)) := by
  constructor
  · simp [write, checkOutputPath, hc, writeToStdout]
  · intro hp hs hfs
    simp [write, checkOutputPath, hp, hs, hc, writeFile, hfs]

/-- Witness for C8: the JSON serialization of `resX` delivered to
stdout and to a file. -/
theorem claim_C8_delivery_payloads_witness :
    write noFmt noHtml resX "json" "" fsOk =
      .ok (resX, .toStdout (stringifyResults resX ++ "\n"))
    ∧ write noFmt noHtml resX "json" "out.json" fsOk =
      .ok (resX, .toFile "out.json" (stringifyResults resX)) :=
  ⟨(claim_C8_delivery_payloads noFmt noHtml resX "json" "out.json" fsOk
      (stringifyResults resX) rfl).1,
   (claim_C8_delivery_payloads noFmt noHtml resX "json" "out.json" fsOk
      (stringifyResults resX) rfl).2 (by decide) (by decide) rfl⟩

/-- C5: for a valid mode, when composition succeeds `write` resolves
with the very results value that was passed in — both on the stdout
path and on a successfully written file path — and when the underlying
file write fails it rejects with that underlying I/O error. -/
theorem claim_C5_write_contract (fmt : Formatters) (hg : Results → String)
    (r : Results) (mode path : String) (fs : Fs) (out : String) (e : IOErr)
    (_hmode : mode ∈ GetValidOutputOptions)
    (hc : createOutput fmt hg r (modeFromName mode) = .ok out) :
    (checkOutputPath path = "stdout" →
      write fmt hg r mode path fs = .ok (r, writeToStdout out))
    ∧ (checkOutputPath path ≠ "stdout" → fs (checkOutputPath path) = none →
        write fmt hg r mode path fs = .ok (r, .toFile (checkOutputPath path) out))
    ∧ (checkOutputPath path ≠ "stdout" → fs (checkOutputPath path) = some e →
        write fmt hg r mode path fs = .error (.io e)) := by
  refine ⟨?_, ?_, ?_⟩
  · intro hp
    simp [write, hp, hc]
  · intro hp hfs
    simp [write, hp, hc, writeFile, hfs]
  · intro hp hfs
    simp [write, hp, hc, writeFile, hfs]

/-- Witness for C5: JSON mode at a concrete tree, on the stdout path,
on a succeeding file path, and on a failing file path. -/
theorem claim_C5_write_contract_witness :
    write noFmt noHtml resX "json" "" fsOk =
      .ok (resX, writeToStdout (stringifyResults resX))
    ∧ write noFmt noHtml resX "json" "f.json" fsOk =
      .ok (resX, .toFile "f.json" (stringifyResults resX))
    ∧ write noFmt noHtml resX "json" "f.json" fsErr =
      .error (.io ⟨"EACCES"⟩) :=
  ⟨(claim_C5_write_contract noFmt noHtml resX "json" "" fsOk
      (stringifyResults resX) ⟨"EACCES"⟩ (by decide) rfl).1 rfl,
   by
    simpa using (claim_C5_write_contract noFmt noHtml resX "json" "f.json" fsOk
      (stringifyResults resX) ⟨"EACCES"⟩ (by decide) rfl).2.1 (by decide) rfl,
   by
    simpa using (claim_C5_write_contract noFmt noHtml resX "json" "f.json" fsErr
      (stringifyResults resX) ⟨"EACCES"⟩ (by decide) rfl).2.2 (by decide) rfl⟩

/-- C1 (the code, at the failing input): a `write` with the unknown
mode name `"xml"` is *not* rejected before composition — the undefined
discriminant falls through the html/json checks into the pretty branch,
so the call behaves exactly like mode `"pretty"`: it resolves and
delivers the pretty output to the destination file. -/
theorem claim_C1_invalid_mode_falls_through :
    write noFmt noHtml resX "xml" "out.txt" fsOk =
      write noFmt noHtml resX "pretty" "out.txt" fsOk
    ∧ (write noFmt noHtml resX "xml" "out.txt" fsOk).isOk = true
    ∧ deliveredFile (write noFmt noHtml resX "xml" "out.txt" fsOk) = true :=
  ⟨rfl, rfl, rfl⟩

/-- C2 (the code, at the failing input): in the minimal pretty-render
scenario (overall 0.8, scored, name `"Item"`), the composed pretty
output does *not* contain the substring `"80%"`.  The percentage is a
string (`toFixed` returns a string), so the colorizer takes its
non-number branch, which wraps the bare `"80"` in the informational
purple colour and never appends the `"%"` suffix. -/
theorem claim_C2_percent_suffix_dropped :
    toFixed0 (itemX.overall * 100) = "80"
    ∧ renderItem noFmt resX itemX =
        .ok (bold ++ "Item" ++ reset ++ ": " ++ (purple ++ "80" ++ reset) ++ "\n"
             ++ (renderAudit noFmt audX ++ "") ++ "\n")
    ∧ strOccursIn "80%"
        (bold ++ "Item" ++ reset ++ ": " ++ (purple ++ "80" ++ reset) ++ "\n") = false
    ∧ strOccursIn (purple ++ "80" ++ reset)
        (bold ++ "Item" ++ reset ++ ": " ++ (purple ++ "80" ++ reset) ++ "\n") = true
    ∧ ∀ pct : String, formatAggregationResultItem (.s pct) "%" = purple ++ pct ++ reset := by
  have h80 : toFixed0 ((0.8 : ℚ) * 100) = "80" := by
    have hmul : (0.8 : ℚ) * 100 = 80 := by norm_num
    rw [hmul]
    decide
  refine ⟨h80, ?_, by decide, by decide, fun pct => rfl⟩
  simp only [renderItem, itemX, renderList, renderSubItem, h80]
  rfl

/-- C6: composing a results tree in json mode — serializing it with
the modelled `JSON.stringify(results, null, 2)` — and then parsing the
resulting string back as structured data yields the original tree
exactly (the serialization round-trips, for every tree). -/
theorem claim_C6_json_roundtrip (r : Results) :
    parseResults (stringifyResults r) = some r := by
  unfold parseResults stringifyResults
  rw [show (String.mk (emitVal 0 r.toJson)).data = emitVal 0 r.toJson from rfl]
  have hv := inv_val r.toJson ((emitVal 0 r.toJson).length + 1) 0 [] []
    (fun c hc => absurd hc (List.not_mem_nil c)) (by omega) rfl
  simp only [List.nil_append, List.append_nil] at hv
  rw [hv]
  simp [results_fromJson_toJson r]

/-- C3 (the code, at the failing input): a string subitem with no
matching key in the audits mapping makes the pretty renderer *abort*:
rendering does not complete, the whole output is lost to the modelled
`TypeError` (reading `.score` of `undefined`). -/
theorem claim_C3_unresolved_ref_aborts :
    prettyPrint noFmt ⟨"x", [⟨"A", [⟨0, "", false, [.ref "missing-audit"]⟩]⟩], [], "1"⟩
      = .error (.missingAudit "missing-audit") := rfl

end Printer
